import Mathlib

/-!
Shallow embedding of `main.py` of the videoCnC service: the `/clip`
endpoint (`clip_video`), the `/convert` filename derivation
(`convert_video_to_audio`), and `cleanup_files`.

Python values parsed from the `clips` form field are modelled by `JVal`
(the image of `json.loads`); a failed `json.loads` is modelled by the
`Option` being `none`.  Python numbers (int/float) are modelled by `Rat`.
Filenames and filesystem paths are modelled by `List Char`.
-/

/-- A JSON value as produced by `json.loads`: null, booleans, numbers,
strings, arrays and objects.  Objects keep their key/value pairs in
textual order; lookup takes the last binding, as a Python dict built by
`json.loads` does. -/
inductive JVal where
  | null : JVal
  | bool (b : Bool) : JVal
  | num (q : Rat) : JVal
  | str (s : String) : JVal
  | arr (xs : List JVal) : JVal
  | obj (kvs : List (String × JVal)) : JVal

/-- Python `k in d` for a dict built from the binding list. -/
def hasKey (kvs : List (String × JVal)) (k : String) : Bool :=
  kvs.any (fun kv => kv.1 = k)

/-- Python `d[k]` for a dict built from the binding list (last binding
wins, as in `json.loads`); `.null` when the key is absent, which the code
never evaluates because it checks membership first. -/
def getKey (kvs : List (String × JVal)) (k : String) : JVal :=
  (((kvs.reverse.find? (fun kv => kv.1 = k)).map Prod.snd)).getD .null

/-- `isinstance(x, (int, float))` on a JSON-decoded value.  Python `bool`
is a subclass of `int`, so JSON `true`/`false` satisfy the check. -/
def isNumeric : JVal → Bool
  | .num _ => true
  | .bool _ => true
  | _ => false

/-- The numeric value Python sees for a value passing `isNumeric`:
`True == 1`, `False == 0`. -/
def toRat : JVal → Rat
  | .num q => q
  | .bool b => if b then 1 else 0
  | _ => 0

/-- A validated clip range.  The Python dict keys are "start" and "end";
`end` is a Lean keyword, so the second field is named `stop`. -/
structure ClipRange where
  start : Rat
  stop : Rat
deriving DecidableEq

/-- The per-entry rule broken first, in the order the code checks them
(main.py lines 189-198). -/
inductive Rule where
  | notDict : Rule
  | missingKeys : Rule
  | notNumbers : Rule
  | negative : Rule
  | badOrder : Rule
deriving DecidableEq

/-- The failures of the `clips` parsing block (main.py lines 181-212),
each carrying exactly the data its `ValueError` f-string interpolates. -/
inductive ParseError where
  | invalidJson : ParseError
  | notAList : ParseError
  | entry (i : Nat) (r : Rule) : ParseError
  | emptyList : ParseError
deriving DecidableEq

deriving instance DecidableEq for Except

/-- The body of the validation loop for index `i` (main.py lines 189-198):
dict check, key-membership check, numeric check, non-negativity check,
order check, in that order. -/
def checkEntry (i : Nat) (v : JVal) : Except ParseError ClipRange :=
  match v with
  | .obj kvs =>
    if ¬ (hasKey kvs "start") ∨ ¬ (hasKey kvs "end") then
      .error (.entry i .missingKeys)
    else
      let s := getKey kvs "start"
      let e := getKey kvs "end"
      if ¬ (isNumeric s) ∨ ¬ (isNumeric e) then .error (.entry i .notNumbers)
      else if toRat s < 0 ∨ toRat e < 0 then .error (.entry i .negative)
      else if toRat e ≤ toRat s then .error (.entry i .badOrder)
      else .ok ⟨toRat s, toRat e⟩
  | _ => .error (.entry i .notDict)

/-- The `for i, clip in enumerate(clips_data)` loop: first violation
raises; otherwise every entry yields a range, in order. -/
def checkEntries (i : Nat) : List JVal → Except ParseError (List ClipRange)
  | [] => .ok []
  | v :: rest =>
    match checkEntry i v with
    | .error e => .error e
    | .ok c =>
      match checkEntries (i + 1) rest with
      | .error e => .error e
      | .ok cs => .ok (c :: cs)

/-- The whole parsing block (main.py lines 181-212): `json.loads` (a
`none` input models a JSONDecodeError), the list check, the per-entry
loop, and the emptiness check which the code performs after the loop. -/
def parseClips (raw : Option JVal) : Except ParseError (List ClipRange) :=
  match raw with
  | none => .error .invalidJson
  | some v =>
    match v with
    | .arr xs =>
      match checkEntries 0 xs with
      | .error e => .error e
      | .ok cs => if xs.length = 0 then .error .emptyList else .ok cs
    | _ => .error .notAList

/-- Split a character list at a separator, like Python `s.split(sep)`:
`n` separators yield `n + 1` (possibly empty) groups. -/
def splitOnChar (sep : Char) : List Char → List (List Char)
  | [] => [[]]
  | c :: rest =>
    if c = sep then [] :: splitOnChar sep rest
    else
      match splitOnChar sep rest with
      | [] => [[c]]
      | g :: gs => (c :: g) :: gs

/-- `PurePath.name`: the final path component.  `pathlib` drops empty and
`"."` components while parsing, and `name` is the last remaining part
(empty for an empty path). -/
def pathName (s : List Char) : List Char :=
  (((splitOnChar '/' s).filter (fun p => p ≠ [] ∧ p ≠ ['.'])).getLastD [])

/-- `PurePath.stem` on a bare name, after `pathlib`: with `i` the index of
the last dot, the suffix is `name[i:]` when `0 < i < len(name) - 1` and
empty otherwise, and the stem is the name minus its suffix. -/
def stemChars (cs : List Char) : List Char :=
  let rev := cs.reverse
  let post := rev.takeWhile (fun c => c ≠ '.')
  if post.length = rev.length then cs
  else if post = [] then cs
  else
    let pre := (rev.drop (post.length + 1)).reverse
    if pre = [] then cs else pre

/-- `Path(s).stem`: directory part stripped, then the last suffix
removed. -/
def pathStem (s : List Char) : List Char := stemChars (pathName s)

/-- `TEMP_DIR / name` (main.py line 22: `TEMP_DIR = Path("temp")`). -/
def tempPath (name : List Char) : List Char := "temp/".toList ++ name

/-- The name `tempfile.NamedTemporaryFile(dir=TEMP_DIR, suffix=ext)`
chooses (main.py lines 222-229): CPython prefixes `tmp`, inserts a fresh
random token, and appends the suffix.  The token is the part `tempfile`
guarantees collision-free. -/
def srcScratchPath (token ext : List Char) : List Char :=
  tempPath ("tmp".toList ++ token ++ ext)

/-- main.py line 247: `Path(file.filename).stem if file.filename else
"video"` (an empty filename is falsy in Python). -/
def baseOf (filename : Option (List Char)) : List Char :=
  match filename with
  | some f => if f.isEmpty then "video".toList else pathStem f
  | none => "video".toList

/-- main.py lines 266-267: `clip_suffix = "" if total_clips == 1 else
f"_\x7bi+1\x7d"` and `f"\x7bbase\x7d_clip\x7bclip_suffix\x7d.mp4"`;
`i` is the 0-based loop index. -/
def clipFilename (base : List Char) (total i : Nat) : List Char :=
  base ++ "_clip".toList ++
    (if total = 1 then [] else '_' :: (toString (i + 1)).toList) ++ ".mp4".toList

/-- main.py line 249: `f"\x7bbase_filename\x7d_clips.zip"`. -/
def zipFilename (base : List Char) : List Char := base ++ "_clips.zip".toList

/-- main.py line 113: `Path(file.filename).stem + ".mp3" if file.filename
else "output.mp3"` — the `/convert` attachment filename. -/
def audio_filename (filename : Option (List Char)) : List Char :=
  match filename with
  | some f => if f.isEmpty then "output.mp3".toList else pathStem f ++ ".mp3".toList
  | none => "output.mp3".toList

/-- Outcome of one `ffmpeg_extract_subclip` invocation: it returns with
the output file written, raises, or returns without having produced the
file (the two failure modes checked at main.py lines 271-300). -/
inductive ExtractOutcome where
  | ok : ExtractOutcome
  | raises : ExtractOutcome
  | noFile : ExtractOutcome
deriving DecidableEq

/-- The errors `clip_video` can surface after parsing, each carrying the
data its message interpolates.  Clip indices are the 0-based loop index
(the extraction messages render `i + 1`). -/
inductive ClipError where
  | malformed (e : ParseError) : ClipError
  | rangeExceeds (i : Nat) (stop : Rat) (dur : Rat) : ClipError
  | extractFailed (i : Nat) : ClipError
  | clipMissing (i : Nat) : ClipError
  | zipMissing : ClipError
deriving DecidableEq

/-- HTTP status of each `HTTPException` raised in `clip_video`
(main.py lines 204, 209, 241, 285, 297, 314). -/
def statusOf : ClipError → Nat
  | .malformed _ => 400
  | .rangeExceeds _ _ _ => 400
  | .extractFailed _ => 500
  | .clipMissing _ => 500
  | .zipMissing => 500

/-- main.py lines 238-244: the duration-validation loop raises on the
first entry whose end exceeds the probed duration, returning its 0-based
index and end time. -/
def validateDuration (i : Nat) (dur : Rat) : List ClipRange → Option (Nat × Rat)
  | [] => none
  | c :: rest => if dur < c.stop then some (i, c.stop) else validateDuration (i + 1) dur rest

/-- State threaded through the extraction loop: the scratch files
currently on disk, the `ffmpeg_extract_subclip` calls made so far (start
and end of each, in order), and the archive entries written so far. -/
structure ClipState where
  files : List (List Char)
  calls : List (Rat × Rat)
  zipEntries : List (List Char)
  clipPaths : List (List Char)
deriving DecidableEq

/-- main.py lines 254-309: the extraction loop.  Each iteration derives
the clip filename, invokes the engine (recorded as a call), and on
success the output file joins scratch and the entry joins the archive.
A raise or a missing output aborts with the corresponding error; the
`with zipfile` block closes the partial archive, which stays on disk,
and nothing is deleted on this path (the `HTTPException` is re-raised
unchanged at lines 330-331, bypassing the cleanup at line 334). -/
def clipLoop (oracle : Nat → ExtractOutcome) (base : List Char) (total : Nat) :
    Nat → ClipState → List ClipRange → Except (ClipError × ClipState) ClipState
  | _, st, [] => .ok st
  | i, st, c :: rest =>
    let fname := clipFilename base total i
    let st1 : ClipState := { st with calls := st.calls ++ [(c.start, c.stop)] }
    match oracle i with
    | .raises => .error (.extractFailed i, st1)
    | .noFile => .error (.clipMissing i, st1)
    | .ok =>
      clipLoop oracle base total (i + 1)
        { files := st1.files ++ [tempPath fname]
          calls := st1.calls
          zipEntries := st1.zipEntries ++ [fname]
          clipPaths := st1.clipPaths ++ [tempPath fname] } rest

/-- The observable outcome of one `/clip` request: the scratch files
present when the response (or error) goes out, the extraction calls made,
the archive entries written, the result (`ok` carries the attachment
filename of the ZIP), and the files whose deletion is scheduled to run
after the response is transmitted (main.py lines 320-321). -/
structure ClipOutcome where
  files : List (List Char)
  calls : List (Rat × Rat)
  zipEntries : List (List Char)
  result : Except ClipError (List Char)
  background : List (List Char)
deriving DecidableEq

/-- main.py lines 214-338, after the parsing block: persist the upload
under the `tempfile`-chosen name `srcName`, probe the duration, validate
each entry against it, open the archive (creating the ZIP file on disk),
run the extraction loop, and either schedule background cleanup and
return the archive or surface the error.  `HTTPException`s raised by the
duration check and by the loop pass through `except HTTPException: raise`
(line 330), so no file is removed on those paths; only the dead
`zip`-missing branch (line 312) cleans up before raising. -/
def clip_video (raw : Option JVal) (filename : Option (List Char))
    (srcName : List Char) (duration : Rat) (oracle : Nat → ExtractOutcome) :
    ClipOutcome :=
  match parseClips raw with
  | .error e => ⟨[], [], [], .error (.malformed e), []⟩
  | .ok plan =>
    let srcPath := tempPath srcName
    match validateDuration 0 duration plan with
    | some (i, e) => ⟨[srcPath], [], [], .error (.rangeExceeds i e duration), []⟩
    | none =>
      let base := baseOf filename
      let zf := zipFilename base
      let zPath := tempPath zf
      let st0 : ClipState := ⟨[srcPath, zPath], [], [], []⟩
      match clipLoop oracle base plan.length 0 st0 plan with
      | .error (err, st) => ⟨st.files, st.calls, st.zipEntries, .error err, []⟩
      | .ok st =>
        if zPath ∈ st.files then
          ⟨st.files, st.calls, st.zipEntries, .ok zf, st.files⟩
        else
          ⟨st.files.filter (fun p => p ≠ srcPath ∧ p ∉ st.clipPaths),
            st.calls, st.zipEntries, .error .zipMissing, []⟩

/-- The filesystem seen by `cleanup_files`: which paths currently
exist. -/
abbrev FS : Type := List Char → Bool

/-- `os.remove` / `shutil.rmtree` on path `p`, which may raise; `errs`
says which paths raise when deletion is attempted (permission error,
races, and so on). -/
def removeRaw (errs : FS) (fs : FS) (p : List Char) : Except (List Char) FS :=
  if errs p then .error p
  else .ok (fun q => if q = p then false else fs q)

/-- The body of the `for` loop in `cleanup_files` (main.py lines
343-351): Python `if file_path` skips `None` and the empty string, then
`os.path.exists`, then the deletion wrapped in `try ... except
Exception: pass`, so a raising deletion leaves the filesystem as it
was and the loop continues. -/
def cleanupStep (errs : FS) (fs : FS) (p : Option (List Char)) : FS :=
  match p with
  | none => fs
  | some path =>
    if path.isEmpty then fs
    else if fs path then
      match removeRaw errs fs path with
      | .error _ => fs
      | .ok fs1 => fs1
    else fs

/-- `cleanup_files(file_paths)` (main.py lines 341-351): each entry is
processed in order by `cleanupStep`; no exception escapes. -/
def cleanup_files (errs : FS) (paths : List (Option (List Char))) (fs : FS) : FS :=
  paths.foldl (cleanupStep errs) fs


/-- Spec-side notion of a numeric plan field read with JSON eyes: only a
JSON number counts, a boolean does not.  Used to state claim C5 the way
the spec words it. -/
def specNumericJson : JVal → Bool
  | .num _ => true
  | _ => false

/-- Spec-side per-entry malformedness with JSON-sense numbers: the entry
is not an object, lacks a start or end key, has a non-numeric start or
end, has a negative start or end, or has end at most start. -/
def specEntryBadJson (v : JVal) : Bool :=
  match v with
  | .obj kvs =>
    !(hasKey kvs "start") || !(hasKey kvs "end") ||
    !(specNumericJson (getKey kvs "start")) || !(specNumericJson (getKey kvs "end")) ||
    decide (toRat (getKey kvs "start") < 0) || decide (toRat (getKey kvs "end") < 0) ||
    decide (toRat (getKey kvs "end") ≤ toRat (getKey kvs "start"))
  | _ => true

/-- Spec-side malformedness of the whole clips value with JSON-sense
numbers (claim C5 as stated): not well-formed JSON, not a list, empty, or
some entry bad. -/
def specMalformedJson (raw : Option JVal) : Bool :=
  match raw with
  | some (.arr xs) => xs.isEmpty || xs.any specEntryBadJson
  | _ => true

/-- An entry the code accepts: an object carrying both keys, both values
passing the Python numeric test (booleans included), both non-negative,
and end strictly greater than start. -/
def entryGoodAmended (v : JVal) : Bool :=
  match v with
  | .obj kvs =>
    hasKey kvs "start" && hasKey kvs "end" &&
    isNumeric (getKey kvs "start") && isNumeric (getKey kvs "end") &&
    decide (0 ≤ toRat (getKey kvs "start")) && decide (0 ≤ toRat (getKey kvs "end")) &&
    decide (toRat (getKey kvs "start") < toRat (getKey kvs "end"))
  | _ => false

/-- A clips value the code accepts: a JSON array, non-empty, every entry
good in the amended (boolean-tolerant) sense. -/
def wellFormedAmended (raw : Option JVal) : Bool :=
  match raw with
  | some (.arr xs) => !xs.isEmpty && xs.all entryGoodAmended
  | _ => false

/-- The first rule a bad entry breaks, in the order the loop body checks
them. -/
def ruleOf (v : JVal) : Rule :=
  match v with
  | .obj kvs =>
    if !(hasKey kvs "start") || !(hasKey kvs "end") then .missingKeys
    else if !(isNumeric (getKey kvs "start")) || !(isNumeric (getKey kvs "end")) then .notNumbers
    else if decide (toRat (getKey kvs "start") < 0) || decide (toRat (getKey kvs "end") < 0) then .negative
    else .badOrder
  | _ => .notDict

/-- `checkEntry` succeeds exactly on amended-good entries, and on a bad
entry reports the first rule broken, at the running index. -/
theorem checkEntry_eq (i : Nat) (v : JVal) :
    checkEntry i v = if entryGoodAmended v then
        .ok ⟨toRat (getKey (match v with | .obj kvs => kvs | _ => []) "start"),
             toRat (getKey (match v with | .obj kvs => kvs | _ => []) "end")⟩
      else .error (.entry i (ruleOf v)) := by
  cases v with
  | obj kvs =>
    simp only [checkEntry, entryGoodAmended, ruleOf]
    split_ifs <;> simp_all <;>
      first
        | linarith
        | (rcases ‹toRat (getKey kvs "start") < 0 ∨ toRat (getKey kvs "end") < 0› with h | h <;>
            linarith)
  | null => rfl
  | bool b => rfl
  | num q => rfl
  | str s => rfl
  | arr xs => rfl

/-- The loop succeeds on a list exactly when every entry is good. -/
theorem checkEntries_isOk (i : Nat) (l : List JVal) :
    (checkEntries i l).isOk = l.all entryGoodAmended := by
  induction l generalizing i with
  | nil => rfl
  | cons v rest ih =>
    rw [List.all_cons, ← ih (i + 1)]
    simp only [checkEntries, checkEntry_eq]
    by_cases h : entryGoodAmended v
    · rw [if_pos h, h, Bool.true_and]
      cases hrec : checkEntries (i + 1) rest <;> simp [Except.isOk, Except.toBool]
    · rw [if_neg h]
      simp [Except.isOk, Except.toBool, h]

/-- On the first bad entry, the loop aborts reporting the running index
plus the offset of that entry and the first rule it breaks. -/
theorem checkEntries_error (i : Nat) (l : List JVal) (j : Nat) (r : Rule)
    (h : checkEntries i l = .error (.entry j r)) :
    i ≤ j ∧ j - i < l.length ∧
      entryGoodAmended (l.getD (j - i) .null) = false ∧
      (∀ k, k < j - i → entryGoodAmended (l.getD k .null) = true) ∧
      r = ruleOf (l.getD (j - i) .null) := by
  induction l generalizing i with
  | nil => simp [checkEntries] at h
  | cons v rest ih =>
    by_cases hv : entryGoodAmended v
    · have hstep : checkEntries i (v :: rest) =
          match checkEntries (i + 1) rest with
          | .error e => .error e
          | .ok cs => .ok ((match checkEntry i v with | .ok c => c | _ => ⟨0, 0⟩) :: cs) := by
        simp only [checkEntries, checkEntry_eq, if_pos hv]
      rw [hstep] at h
      cases hrec : checkEntries (i + 1) rest with
      | error e =>
        rw [hrec] at h
        cases h
        obtain ⟨hij, hlen, hbad, hfirst, hr⟩ := ih (i + 1) hrec
        have hij2 : i ≤ j := le_trans (Nat.le_succ i) hij
        refine ⟨hij2, ?_, ?_, ?_, ?_⟩
        · simp only [List.length_cons]
          omega
        · have : j - i = (j - (i + 1)) + 1 := by omega
          rw [this]
          simpa using hbad
        · intro k hk
          cases k with
          | zero => simpa using hv
          | succ k2 =>
            have : k2 < j - (i + 1) := by omega
            simpa using hfirst k2 this
        · have : j - i = (j - (i + 1)) + 1 := by omega
          rw [this]
          simpa using hr
      | ok cs => rw [hrec] at h ; cases h
    · have hstep : checkEntries i (v :: rest) = .error (.entry i (ruleOf v)) := by
        simp only [checkEntries, checkEntry_eq, if_neg hv]
      rw [hstep] at h
      cases h
      refine ⟨le_refl _, ?_, ?_, ?_, ?_⟩ <;> simp [Nat.sub_self]
      · simpa using hv

/-- `parseClips` succeeds exactly on amended-well-formed input. -/
theorem parseClips_isOk (raw : Option JVal) :
    (parseClips raw).isOk = wellFormedAmended raw := by
  cases raw with
  | none => rfl
  | some v =>
    cases v with
    | arr xs =>
      simp only [parseClips, wellFormedAmended]
      cases hrec : checkEntries 0 xs with
      | error e =>
        have := checkEntries_isOk 0 xs
        rw [hrec] at this
        simp only [Except.isOk, Except.toBool] at this ⊢
        simp [← this]
      | ok cs =>
        have := checkEntries_isOk 0 xs
        rw [hrec] at this
        simp only [Except.isOk, Except.toBool] at this ⊢
        by_cases hlen : xs.length = 0
        · have : xs = [] := List.length_eq_zero.mp hlen
          subst this
          simp
        · rw [if_neg hlen]
          have hne : xs.isEmpty = false := by
            cases xs with
            | nil => exact absurd rfl hlen
            | cons a as => rfl
          simp [hne, ← this]
    | null => rfl
    | bool b => rfl
    | num q => rfl
    | str s => rfl
    | obj kvs => rfl

/-- An entry error surfaced by `parseClips` pinpoints the first bad
entry: its 0-based index, the rules all earlier entries satisfy, and the
first rule it breaks. -/
theorem parseClips_entry_error (xs : List JVal) (i : Nat) (r : Rule)
    (h : parseClips (some (.arr xs)) = .error (.entry i r)) :
    i < xs.length ∧ entryGoodAmended (xs.getD i .null) = false ∧
      (∀ k, k < i → entryGoodAmended (xs.getD k .null) = true) ∧
      r = ruleOf (xs.getD i .null) := by
  simp only [parseClips] at h
  cases hrec : checkEntries 0 xs with
  | error e =>
    rw [hrec] at h
    cases h
    obtain ⟨_, hlen, hbad, hfirst, hr⟩ := checkEntries_error 0 xs i r hrec
    rw [Nat.sub_zero] at hlen hbad hfirst hr
    exact ⟨hlen, hbad, hfirst, hr⟩
  | ok cs =>
    rw [hrec] at h
    by_cases hlen : xs.length = 0 <;> simp [hlen] at h

/-- Claim C5, counterexample: with `clips` decoding to
`[{"start": false, "end": 1}]` the entry has a boolean — in JSON terms a
non-numeric — start, so the claim as stated demands a `MalformedInput`
failure, yet `parseClips` accepts the plan (Python treats `False` as the
number 0), so the stated iff is violated at this input. -/
theorem parse_validation_bool_cex :
    specMalformedJson (some (.arr [.obj [("start", .bool false), ("end", .num 1)]])) = true ∧
      parseClips (some (.arr [.obj [("start", .bool false), ("end", .num 1)]])) =
        .ok [⟨0, 1⟩] := by
  constructor
  · rfl
  · rfl

/-- Claim C5 (amended: a boolean start or end counts as numeric, because
Python `bool` is a subclass of `int`): `/clip` parse-validation fails
exactly on inputs that are invalid JSON, not a list, empty, or contain an
entry that is not an object, lacks a start or end key, has a start or end
that is neither a number nor a boolean, has a negative start or end, or
has end at most start; a per-entry failure reports the first-violating
0-based index and the first rule that entry breaks; and on every parse
failure no extraction call is made and no file is persisted (not even
the upload). -/
theorem parse_validation_amended (raw : Option JVal) :
    ((parseClips raw).isOk = wellFormedAmended raw) ∧
    (∀ xs i r, raw = some (.arr xs) → parseClips raw = .error (.entry i r) →
      i < xs.length ∧ entryGoodAmended (xs.getD i .null) = false ∧
        (∀ k, k < i → entryGoodAmended (xs.getD k .null) = true) ∧
        r = ruleOf (xs.getD i .null)) ∧
    (∀ e fn srcName dur oracle, parseClips raw = .error e →
      clip_video raw fn srcName dur oracle = ⟨[], [], [], .error (.malformed e), []⟩) := by
  refine ⟨parseClips_isOk raw, ?_, ?_⟩
  · intro xs i r hraw herr
    subst hraw
    exact parseClips_entry_error xs i r herr
  · intro e fn srcName dur oracle herr
    simp only [clip_video, herr]

/-- Witness for `parse_validation_amended`: a plan whose sole entry lacks
the end key fails with the entry-0 missing-keys error, and the request
persists nothing and calls nothing. -/
theorem parse_validation_amended_witness :
    clip_video (some (.arr [.obj [("start", .num 0)]])) none [] 0 (fun _ => .ok) =
      ⟨[], [], [], .error (.malformed (.entry 0 .missingKeys)), []⟩ :=
  (parse_validation_amended (some (.arr [.obj [("start", .num 0)]]))).2.2
    (.entry 0 .missingKeys) none [] 0 (fun _ => .ok) (by rfl)

/-- Claim C10: a JSON boolean in start or end passes the
`isinstance(..., (int, float))` test and is used as 1 (`true`) or 0
(`false`): such entries are accepted, not rejected as non-numeric. -/
theorem bool_startend_accepted (i : Nat) (b : Bool) :
    (∀ e : Rat, (if b then (1 : Rat) else 0) < e →
      checkEntry i (.obj [("start", .bool b), ("end", .num e)]) =
        .ok ⟨if b then 1 else 0, e⟩) ∧
    (∀ s : Rat, 0 ≤ s → s < (if b then (1 : Rat) else 0) →
      checkEntry i (.obj [("start", .num s), ("end", .bool b)]) =
        .ok ⟨s, if b then 1 else 0⟩) := by
  constructor
  · intro e he
    have h0 : (0 : Rat) ≤ if b then (1 : Rat) else 0 := by
      cases b <;> norm_num
    have hs : ¬ (toRat (.bool b) < 0) := by
      simpa [toRat] using not_lt.mpr h0
    have hee : ¬ ((e : Rat) < 0) := not_lt.mpr (le_trans h0 (le_of_lt he))
    have ho : ¬ ((e : Rat) ≤ toRat (.bool b)) := by
      simpa [toRat] using not_le.mpr he
    simp [checkEntry, hasKey, getKey, isNumeric, toRat, hs, hee, ho]
    rw [if_neg (by simpa [toRat] using hs), if_neg (by simpa [toRat] using ho)]
  · intro s h0 hb
    have hs : ¬ ((s : Rat) < 0) := not_lt.mpr h0
    have hbb : ¬ (toRat (.bool b) < 0) := by
      have : (0 : Rat) ≤ if b then (1 : Rat) else 0 := by cases b <;> norm_num
      simpa [toRat] using not_lt.mpr this
    have ho : ¬ (toRat (.bool b) ≤ s) := by
      simpa [toRat] using not_le.mpr hb
    simp [checkEntry, hasKey, getKey, isNumeric, toRat, hs, hbb, ho]
    rw [if_neg (by simpa [toRat] using hbb), if_neg (by simpa [toRat] using ho)]

/-- Witness for `bool_startend_accepted`: `{"start": false, "end": 1}`
yields the range 0..1 and `{"start": 0, "end": true}` yields 0..1. -/
theorem bool_startend_accepted_witness :
    checkEntry 0 (.obj [("start", .bool false), ("end", .num 1)]) = .ok ⟨0, 1⟩ ∧
      checkEntry 0 (.obj [("start", .num 0), ("end", .bool true)]) = .ok ⟨0, 1⟩ := by
  constructor
  · have h := (bool_startend_accepted 0 false).1 1 (by norm_num)
    simpa using h
  · have h := (bool_startend_accepted 0 true).2 0 (by norm_num) (by norm_num)
    simpa using h

/-- Claim C9: when the clips value fails parse-validation, the request
ends before the upload is persisted, so no file at all reaches scratch
storage and no extraction call is made (main.py runs the parsing block,
lines 181-212, strictly before the `tempfile` write at lines 222-229). -/
theorem parse_failure_no_persist (raw : Option JVal) (e : ParseError)
    (fn : Option (List Char)) (srcName : List Char) (dur : Rat)
    (oracle : Nat → ExtractOutcome) (h : parseClips raw = .error e) :
    (clip_video raw fn srcName dur oracle).files = [] ∧
      (clip_video raw fn srcName dur oracle).calls = [] ∧
      (clip_video raw fn srcName dur oracle).result = .error (.malformed e) := by
  simp [clip_video, h]

/-- Witness for `parse_failure_no_persist`: an empty plan, the
`json.loads` result `[]`, persists nothing. -/
theorem parse_failure_no_persist_witness :
    (clip_video (some (.arr [])) (some "a.mp4".toList) "tmpx.mp4".toList 10
        (fun _ => .ok)).files = [] ∧
      (clip_video (some (.arr [])) (some "a.mp4".toList) "tmpx.mp4".toList 10
          (fun _ => .ok)).calls = [] ∧
      (clip_video (some (.arr [])) (some "a.mp4".toList) "tmpx.mp4".toList 10
          (fun _ => .ok)).result = .error (.malformed .emptyList) :=
  parse_failure_no_persist (some (.arr [])) .emptyList (some "a.mp4".toList)
    "tmpx.mp4".toList 10 (fun _ => .ok) (by rfl)

/-- Claim C2 is violated by the code: with plan `[{"start": 0, "end":
100}]` against a probed duration of 10, the `HTTPException` raised by the
duration check (main.py line 241) propagates through `except
HTTPException: raise` (line 330), which performs no cleanup, so the
persisted source `temp/tmpabc123.mp4` is still in scratch storage when
the 400 error is surfaced — the claim says it is deleted first. -/
theorem range_error_leaves_source_file :
    clip_video (some (.arr [.obj [("start", .num 0), ("end", .num 100)]]))
        (some "video.mp4".toList) "tmpabc123.mp4".toList 10 (fun _ => .ok) =
      ⟨["temp/tmpabc123.mp4".toList], [], [],
        .error (.rangeExceeds 0 100 10), []⟩ := by
  rfl

/-- Claim C1 is violated by the code: with plan `[{"start": 0, "end": 1},
{"start": 1, "end": 2}]` and the second `ffmpeg_extract_subclip` call
raising, the `HTTPException` raised at main.py line 285 propagates
through `except HTTPException: raise` (line 330) with no cleanup, so the
persisted source, the partially-written ZIP and the first clip file all
remain in scratch storage when the 500 error is surfaced — the claim
says they are removed first.  (No archive is returned, which is the one
part of the claim the code honours.) -/
theorem clip_failure_leaves_scratch_files :
    clip_video
        (some (.arr [.obj [("start", .num 0), ("end", .num 1)],
                     .obj [("start", .num 1), ("end", .num 2)]]))
        (some "video.mp4".toList) "tmpabc123.mp4".toList 10
        (fun i => if i = 0 then .ok else .raises) =
      ⟨["temp/tmpabc123.mp4".toList, "temp/video_clips.zip".toList,
          "temp/video_clip_1.mp4".toList],
        [(0, 1), (1, 2)], ["video_clip_1.mp4".toList],
        .error (.extractFailed 1), []⟩ := by
  rfl

/-- Claim C3, counterexample: the uploads `a.mp4` and `a.avi` are
distinct, yet the ZIP path, the clip path and the MP3 path derived for
them coincide, because those names depend only on the uploaded
filename's stem (main.py lines 113, 247-268). -/
theorem scratch_path_collision_cex :
    "a.mp4".toList ≠ "a.avi".toList ∧
      tempPath (zipFilename (baseOf (some "a.mp4".toList))) =
        tempPath (zipFilename (baseOf (some "a.avi".toList))) ∧
      tempPath (clipFilename (baseOf (some "a.mp4".toList)) 1 0) =
        tempPath (clipFilename (baseOf (some "a.avi".toList)) 1 0) ∧
      tempPath (audio_filename (some "a.mp4".toList)) =
        tempPath (audio_filename (some "a.avi".toList)) := by
  refine ⟨by decide, by rfl, by rfl, by rfl⟩

/-- Claim C3 as amended: only the persisted source paths are unique per
request — `tempfile` picks fresh equal-length random tokens, and distinct
tokens give distinct source paths whatever the upload extensions are —
while the ZIP (and likewise clip and MP3) paths are determined purely by
the derived base name, so two requests collide on them exactly when their
base names coincide. -/
theorem scratch_path_uniqueness_amended :
    (∀ t1 t2 e1 e2 : List Char, t1.length = t2.length → t1 ≠ t2 →
      srcScratchPath t1 e1 ≠ srcScratchPath t2 e2) ∧
    (∀ b1 b2 : List Char,
      tempPath (zipFilename b1) = tempPath (zipFilename b2) ↔ b1 = b2) ∧
    (∀ f1 f2 : Option (List Char), baseOf f1 = baseOf f2 →
      tempPath (zipFilename (baseOf f1)) = tempPath (zipFilename (baseOf f2)) ∧
        ∀ n i, tempPath (clipFilename (baseOf f1) n i) =
          tempPath (clipFilename (baseOf f2) n i)) := by
  refine ⟨?_, ?_, ?_⟩
  · intro t1 t2 e1 e2 hlen hne heq
    apply hne
    simp only [srcScratchPath, tempPath] at heq
    have h1 := List.append_cancel_left heq
    rw [List.append_assoc ("tmp".toList) t1 e1, List.append_assoc ("tmp".toList) t2 e2] at h1
    have h2 := List.append_cancel_left h1
    exact (List.append_inj h2 hlen).1
  · intro b1 b2
    constructor
    · intro heq
      simp only [tempPath, zipFilename] at heq
      have h1 := List.append_cancel_left heq
      exact List.append_cancel_right h1
    · intro heq
      rw [heq]
  · intro f1 f2 heq
    rw [heq]
    exact ⟨rfl, fun n i => rfl⟩

/-- The duration check returns nothing exactly when every entry fits. -/
theorem validateDuration_none_iff (i : Nat) (dur : Rat) (l : List ClipRange) :
    validateDuration i dur l = none ↔ ∀ c ∈ l, c.stop ≤ dur := by
  induction l generalizing i with
  | nil => simp [validateDuration]
  | cons c rest ih =>
    simp only [validateDuration]
    by_cases h : dur < c.stop
    · simp [h, not_le.mpr h]
    · simp only [if_neg h, ih (i + 1), List.mem_cons]
      constructor
      · intro hall d hd
        rcases hd with hd | hd
        · rw [hd] ; exact not_lt.mp h
        · exact hall d hd
      · intro hall d hd
        exact hall d (Or.inr hd)

/-- A duration-check hit identifies the first offending entry: its
0-based index relative to the start of the scan, its end time, and the
fact that every earlier entry fits. -/
theorem validateDuration_some (i : Nat) (dur : Rat) (l : List ClipRange)
    (j : Nat) (e : Rat) (h : validateDuration i dur l = some (j, e)) :
    i ≤ j ∧ j - i < l.length ∧ e = (l.getD (j - i) ⟨0, 0⟩).stop ∧ dur < e ∧
      ∀ k, k < j - i → (l.getD k ⟨0, 0⟩).stop ≤ dur := by
  induction l generalizing i with
  | nil => simp [validateDuration] at h
  | cons c rest ih =>
    simp only [validateDuration] at h
    by_cases hc : dur < c.stop
    · rw [if_pos hc] at h
      cases h
      exact ⟨le_refl _, by simp [Nat.sub_self], by simp [Nat.sub_self], hc,
        by intro k hk ; omega⟩
    · rw [if_neg hc] at h
      obtain ⟨hij, hlen, he, hdur, hfirst⟩ := ih (i + 1) h
      have hij2 : i ≤ j := le_trans (Nat.le_succ i) hij
      have hsub : j - i = (j - (i + 1)) + 1 := by omega
      refine ⟨hij2, by simp only [List.length_cons] ; omega, ?_, hdur, ?_⟩
      · rw [hsub] ; simpa using he
      · intro k hk
        cases k with
        | zero => simpa using not_lt.mp hc
        | succ k2 =>
          have : k2 < j - (i + 1) := by omega
          simpa using hfirst k2 this

/-- Claim C4: when a structurally valid plan contains an entry whose end
exceeds the probed duration, the request fails with a 400
`HTTPException` whose data names the first such entry's 0-based index,
that entry's end time, and the probed duration, and it does so before
any extraction call is made (and before any archive entry exists). -/
theorem range_validation_first_violation (raw : Option JVal)
    (fn : Option (List Char)) (srcName : List Char) (dur : Rat)
    (oracle : Nat → ExtractOutcome) (plan : List ClipRange)
    (hp : parseClips raw = .ok plan) (hviol : ∃ c ∈ plan, dur < c.stop) :
    ∃ j, j < plan.length ∧
      (clip_video raw fn srcName dur oracle).result =
        .error (.rangeExceeds j (plan.getD j ⟨0, 0⟩).stop dur) ∧
      statusOf (.rangeExceeds j (plan.getD j ⟨0, 0⟩).stop dur) = 400 ∧
      dur < (plan.getD j ⟨0, 0⟩).stop ∧
      (∀ k, k < j → (plan.getD k ⟨0, 0⟩).stop ≤ dur) ∧
      (clip_video raw fn srcName dur oracle).calls = [] ∧
      (clip_video raw fn srcName dur oracle).zipEntries = [] := by
  have hnot : validateDuration 0 dur plan ≠ none := by
    intro hnone
    obtain ⟨c, hc, hlt⟩ := hviol
    exact absurd ((validateDuration_none_iff 0 dur plan).mp hnone c hc) (not_le.mpr hlt)
  obtain ⟨⟨j, e⟩, hsome⟩ := Option.ne_none_iff_exists.mp hnot
  obtain ⟨_, hlen, he, hdur, hfirst⟩ := validateDuration_some 0 dur plan j e hsome.symm
  rw [Nat.sub_zero] at hlen he hfirst
  refine ⟨j, hlen, ?_, rfl, he ▸ hdur, hfirst, ?_, ?_⟩ <;>
    simp only [clip_video, hp, hsome.symm, ← he]

/-- Witness for `range_validation_first_violation`: the 30-second
example plan of the spec against a 22-second source fails citing index 1
with end 25 against duration 22, before any extraction. -/
theorem range_validation_first_violation_witness :
    ∃ j, j < ([⟨5, 10⟩, ⟨20, 25⟩] : List ClipRange).length ∧
      (clip_video
          (some (.arr [.obj [("start", .num 5), ("end", .num 10)],
                       .obj [("start", .num 20), ("end", .num 25)]]))
          (some "video.mp4".toList) "tmpabc123.mp4".toList 22
          (fun _ => .ok)).result =
        .error (.rangeExceeds j (([⟨5, 10⟩, ⟨20, 25⟩] : List ClipRange).getD j ⟨0, 0⟩).stop 22) ∧
      statusOf (.rangeExceeds j (([⟨5, 10⟩, ⟨20, 25⟩] : List ClipRange).getD j ⟨0, 0⟩).stop 22) = 400 ∧
      (22 : Rat) < (([⟨5, 10⟩, ⟨20, 25⟩] : List ClipRange).getD j ⟨0, 0⟩).stop ∧
      (∀ k, k < j → (([⟨5, 10⟩, ⟨20, 25⟩] : List ClipRange).getD k ⟨0, 0⟩).stop ≤ 22) ∧
      (clip_video
          (some (.arr [.obj [("start", .num 5), ("end", .num 10)],
                       .obj [("start", .num 20), ("end", .num 25)]]))
          (some "video.mp4".toList) "tmpabc123.mp4".toList 22
          (fun _ => .ok)).calls = [] ∧
      (clip_video
          (some (.arr [.obj [("start", .num 5), ("end", .num 10)],
                       .obj [("start", .num 20), ("end", .num 25)]]))
          (some "video.mp4".toList) "tmpabc123.mp4".toList 22
          (fun _ => .ok)).zipEntries = [] :=
  range_validation_first_violation
    (some (.arr [.obj [("start", .num 5), ("end", .num 10)],
                 .obj [("start", .num 20), ("end", .num 25)]]))
    (some "video.mp4".toList) "tmpabc123.mp4".toList 22 (fun _ => .ok)
    [⟨5, 10⟩, ⟨20, 25⟩] (by rfl)
    ⟨⟨20, 25⟩, by simp, by norm_num⟩

/-- A `ClipRange` encoded back into the JSON object the endpoint
receives for it. -/
def renderRange (c : ClipRange) : JVal :=
  .obj [("start", .num c.start), ("end", .num c.stop)]

/-- A plan encoded as the JSON array the `clips` form field decodes
to. -/
def renderPlan (l : List ClipRange) : JVal := .arr (l.map renderRange)

/-- Parsing the rendered entry of a structurally valid range recovers
it. -/
theorem checkEntry_render (i : Nat) (c : ClipRange) (h0 : 0 ≤ c.start)
    (h1 : c.start < c.stop) : checkEntry i (renderRange c) = .ok c := by
  have hs : ¬ (c.start < 0) := not_lt.mpr h0
  have he : ¬ (c.stop < 0) := not_lt.mpr (le_trans h0 (le_of_lt h1))
  have ho : ¬ (c.stop ≤ c.start) := not_le.mpr h1
  simp [checkEntry, renderRange, hasKey, getKey, isNumeric, toRat, hs, he, ho]

/-- Parsing a rendered structurally valid plan recovers it. -/
theorem checkEntries_render (i : Nat) (l : List ClipRange)
    (h : ∀ c ∈ l, 0 ≤ c.start ∧ c.start < c.stop) :
    checkEntries i (l.map renderRange) = .ok l := by
  induction l generalizing i with
  | nil => rfl
  | cons c rest ih =>
    obtain ⟨h0, h1⟩ := h c (List.mem_cons_self c rest)
    have hrest : ∀ d ∈ rest, 0 ≤ d.start ∧ d.start < d.stop :=
      fun d hd => h d (List.mem_cons_of_mem c hd)
    simp only [List.map_cons, checkEntries, checkEntry_render i c h0 h1, ih (i + 1) hrest]

/-- `parseClips` accepts every rendered non-empty structurally valid
plan. -/
theorem parseClips_render (l : List ClipRange) (hne : l ≠ [])
    (h : ∀ c ∈ l, 0 ≤ c.start ∧ c.start < c.stop) :
    parseClips (some (renderPlan l)) = .ok l := by
  simp only [parseClips, renderPlan, checkEntries_render 0 l h]
  have hlen : ¬ ((l.map renderRange).length = 0) := by
    intro hh
    exact hne (List.length_eq_zero.mp (by simpa using hh))
  rw [if_neg hlen]

/-- Shifting a 1-step offset into a `range`-indexed map. -/
theorem range_map_shift (n : Nat) (i : Nat) (g : Nat → List Char) :
    g i :: (List.range n).map (fun k => g (i + 1 + k)) =
      (List.range (n + 1)).map (fun k => g (i + k)) := by
  rw [List.range_succ_eq_map, List.map_cons, List.map_map]
  refine congrArg₂ List.cons (by simp) ?_
  apply List.map_congr_left
  intro k hk
  simp only [Function.comp_apply]
  congr 1
  omega

/-- When every extraction call succeeds, the loop performs one call per
entry in plan order, writes one file and one archive entry per entry,
and numbers the filenames by position. -/
theorem clipLoop_ok (oracle : Nat → ExtractOutcome) (hok : ∀ n, oracle n = .ok)
    (base : List Char) (total : Nat) (l : List ClipRange) :
    ∀ (i : Nat) (st : ClipState),
    clipLoop oracle base total i st l = .ok
      { files := st.files ++
          (List.range l.length).map (fun k => tempPath (clipFilename base total (i + k)))
        calls := st.calls ++ l.map (fun c => (c.start, c.stop))
        zipEntries := st.zipEntries ++
          (List.range l.length).map (fun k => clipFilename base total (i + k))
        clipPaths := st.clipPaths ++
          (List.range l.length).map (fun k => tempPath (clipFilename base total (i + k))) } := by
  induction l with
  | nil =>
    intro i st
    simp [clipLoop]
  | cons c rest ih =>
    intro i st
    simp only [clipLoop, hok i]
    rw [ih (i + 1)]
    congr 1
    have h1 := range_map_shift rest.length i (fun j => tempPath (clipFilename base total j))
    have h2 := range_map_shift rest.length i (fun j => clipFilename base total j)
    simp only [ClipState.mk.injEq, List.append_assoc, List.length_cons, List.map_cons,
      List.singleton_append]
    simp [h1, h2]

/-- Claim C6: on a valid plan of length N with every extraction
succeeding, exactly N extraction calls are made, one per entry in plan
order, and the archive receives exactly N entries in plan order named
by `clipFilename` (no index suffix when N = 1, 1-based `_i` suffix
otherwise); the response carries the archive and cleanup of the source,
archive and clip files is deferred to after transmission. -/
theorem happy_path_archive (plan : List ClipRange) (fn : Option (List Char))
    (srcName : List Char) (dur : Rat) (hne : plan ≠ [])
    (hvalid : ∀ c ∈ plan, 0 ≤ c.start ∧ c.start < c.stop ∧ c.stop ≤ dur) :
    clip_video (some (renderPlan plan)) fn srcName dur (fun _ => .ok) =
      { files := tempPath srcName :: tempPath (zipFilename (baseOf fn)) ::
          (List.range plan.length).map
            (fun k => tempPath (clipFilename (baseOf fn) plan.length k))
        calls := plan.map (fun c => (c.start, c.stop))
        zipEntries := (List.range plan.length).map
          (fun k => clipFilename (baseOf fn) plan.length k)
        result := .ok (zipFilename (baseOf fn))
        background := tempPath srcName :: tempPath (zipFilename (baseOf fn)) ::
          (List.range plan.length).map
            (fun k => tempPath (clipFilename (baseOf fn) plan.length k)) } ∧
    ((List.range plan.length).map
        (fun k => clipFilename (baseOf fn) plan.length k)).length = plan.length ∧
    (plan.map (fun c => (c.start, c.stop))).length = plan.length := by
  have hp := parseClips_render plan hne (fun c hc => ⟨(hvalid c hc).1, (hvalid c hc).2.1⟩)
  have hd : validateDuration 0 dur plan = none :=
    (validateDuration_none_iff 0 dur plan).mpr (fun c hc => (hvalid c hc).2.2)
  have hloop := clipLoop_ok (fun _ => .ok) (fun _ => rfl) (baseOf fn) plan.length plan 0
    ⟨[tempPath srcName, tempPath (zipFilename (baseOf fn))], [], [], []⟩
  refine ⟨?_, by simp, by simp⟩
  simp only [clip_video, hp, hd, hloop, Nat.zero_add]
  simp [List.mem_cons]

/-- Witness for `happy_path_archive`: a two-entry plan against a
10-second source produces two calls and the two 1-indexed archive
entries, with both clip files, the source and the archive scheduled for
post-response cleanup. -/
theorem happy_path_archive_witness :
    clip_video (some (renderPlan [⟨0, 1⟩, ⟨1, 2⟩])) (some "video.mp4".toList)
        "tmpabc123.mp4".toList 10 (fun _ => .ok) =
      ⟨["temp/tmpabc123.mp4".toList, "temp/video_clips.zip".toList,
          "temp/video_clip_1.mp4".toList, "temp/video_clip_2.mp4".toList],
        [(0, 1), (1, 2)],
        ["video_clip_1.mp4".toList, "video_clip_2.mp4".toList],
        .ok "video_clips.zip".toList,
        ["temp/tmpabc123.mp4".toList, "temp/video_clips.zip".toList,
          "temp/video_clip_1.mp4".toList, "temp/video_clip_2.mp4".toList]⟩ := by
  have h := (happy_path_archive [⟨0, 1⟩, ⟨1, 2⟩] (some "video.mp4".toList)
      "tmpabc123.mp4".toList 10 (by decide)
      (by
        intro c hc
        simp only [List.mem_cons, List.not_mem_nil, or_false] at hc
        rcases hc with h | h <;> subst h <;>
          exact ⟨by norm_num, by norm_num, by norm_num⟩)).1
  exact h.trans (by decide)

/-- Pointwise behaviour of `cleanup_files`: a path ends up absent iff it
was absent already or it occurs in the list, is a non-empty name, and
its deletion does not raise; entries never affect other paths. -/
theorem cleanup_char (errs : FS) (paths : List (Option (List Char))) :
    ∀ (fs : FS) (q : List Char),
    cleanup_files errs paths fs q =
      (fs q && !(decide (some q ∈ paths) && !q.isEmpty && !(errs q))) := by
  induction paths with
  | nil =>
    intro fs q
    simp [cleanup_files]
  | cons p rest ih =>
    intro fs q
    have hstep : cleanup_files errs (p :: rest) fs =
        cleanup_files errs rest (cleanupStep errs fs p) := rfl
    rw [hstep, ih (cleanupStep errs fs p) q]
    cases p with
    | none => simp [cleanupStep, List.mem_cons]
    | some path =>
      by_cases hq : q = path
      · subst hq
        have hmem : decide (some q ∈ some q :: rest) = true := by simp
        by_cases hemp : q.isEmpty <;> by_cases hfs : fs q <;> by_cases herr : errs q <;>
          simp [cleanupStep, removeRaw, hmem, hemp, hfs, herr]
      · have hmem : decide (some q ∈ some path :: rest) = decide (some q ∈ rest) := by
          simp [List.mem_cons, hq]
        have hstepq : cleanupStep errs fs (some path) q = fs q := by
          by_cases h1 : path.isEmpty <;> by_cases h2 : fs path <;>
            by_cases h3 : errs path <;>
              simp [cleanupStep, removeRaw, h1, h2, h3, hq]
        rw [hstepq, hmem]

/-- Claim C7: `cleanup_files` is total on every path list (each
deletion is wrapped in `try ... except Exception: pass`, modelled by
`cleanupStep` consuming `removeRaw` failures, so no exception escapes
and the loop always reaches every entry); a raising entry never blocks
the deletion of any other deletable entry; and a second run over the
same list changes nothing. -/
theorem cleanup_files_idempotent_nonblocking (errs : FS)
    (paths : List (Option (List Char))) (fs : FS) :
    cleanup_files errs paths (cleanup_files errs paths fs) =
        cleanup_files errs paths fs ∧
      (∀ p, some p ∈ paths → p ≠ [] → errs p = false →
        cleanup_files errs paths fs p = false) := by
  constructor
  · funext q
    rw [cleanup_char errs paths (cleanup_files errs paths fs) q,
      cleanup_char errs paths fs q]
    cases hfs : fs q <;> cases hc : (decide (some q ∈ paths) && !q.isEmpty && !(errs q)) <;>
      simp [hfs, hc]
  · intro p hp hne herr
    rw [cleanup_char errs paths fs p]
    have hemp : p.isEmpty = false := by
      cases p with
      | nil => exact absurd rfl hne
      | cons a as => rfl
    simp [hp, hemp, herr]

/-- Witness for `cleanup_files_idempotent_nonblocking`: with deletion of
`a` raising and the list `[a, None, b]`, the path `b` is still deleted. -/
theorem cleanup_files_idempotent_nonblocking_witness :
    cleanup_files (fun p => decide (p = "a".toList))
        [some "a".toList, none, some "b".toList]
        (fun q => decide (q = "a".toList) || decide (q = "b".toList))
        "b".toList = false :=
  (cleanup_files_idempotent_nonblocking (fun p => decide (p = "a".toList))
      [some "a".toList, none, some "b".toList]
      (fun q => decide (q = "a".toList) || decide (q = "b".toList))).2
    "b".toList (by decide) (by decide) (by decide)

/-- `takeWhile` stops exactly at the first failing element. -/
theorem takeWhile_append_cons (p : Char → Bool) (l1 : List Char) (c : Char)
    (l2 : List Char) (h : ∀ x ∈ l1, p x = true) (hc : p c = false) :
    (l1 ++ c :: l2).takeWhile p = l1 := by
  induction l1 with
  | nil => simp [List.takeWhile, hc]
  | cons a as ih =>
    have ha : p a = true := h a (List.mem_cons_self a as)
    have has : ∀ x ∈ as, p x = true := fun x hx => h x (List.mem_cons_of_mem a hx)
    simp [List.takeWhile, ha, ih has]

/-- A list without separators is a single split group. -/
theorem splitOnChar_no_sep (sep : Char) (cs : List Char) (h : sep ∉ cs) :
    splitOnChar sep cs = [cs] := by
  induction cs with
  | nil => rfl
  | cons c rest ih =>
    have hc : ¬ (c = sep) := fun hh => h (hh ▸ List.mem_cons_self c rest)
    have hrest : sep ∉ rest := fun hh => h (List.mem_cons_of_mem c hh)
    simp [splitOnChar, hc, ih hrest]

/-- A slash-free, non-empty name other than `.` is its own final path
component. -/
theorem pathName_no_slash (cs : List Char) (h : '/' ∉ cs) (h1 : cs ≠ [])
    (h2 : cs ≠ ['.']) : pathName cs = cs := by
  simp [pathName, splitOnChar_no_sep '/' cs h, h1, h2]

/-- The stem of `b.e` is `b` when the extension `e` contains no dot
(`b` may: only the last suffix is stripped). -/
theorem stemChars_append (b e : List Char) (hb : b ≠ []) (he : e ≠ [])
    (hed : '.' ∉ e) : stemChars (b ++ '.' :: e) = b := by
  have hrev : (b ++ '.' :: e).reverse = (e.reverse ++ ['.']) ++ b.reverse := by
    rw [List.reverse_append, List.reverse_cons]
  have hpost : ((e.reverse ++ ['.']) ++ b.reverse).takeWhile (fun c => c ≠ '.') =
      e.reverse := by
    rw [List.append_assoc, List.singleton_append]
    exact takeWhile_append_cons _ e.reverse '.' b.reverse
      (by
        intro x hx
        have hxe : x ∈ e := List.mem_reverse.mp hx
        have hxd : x ≠ '.' := fun hh => hed (hh ▸ hxe)
        simpa using hxd)
      (by simp)
  have hlen : e.reverse.length ≠ ((e.reverse ++ ['.']) ++ b.reverse).length := by
    simp only [List.length_append, List.length_reverse, List.length_singleton]
    omega
  have hne : e.reverse ≠ [] := fun hh => he (by simpa using congrArg List.reverse hh)
  have hdrop : ((e.reverse ++ ['.']) ++ b.reverse).drop (e.reverse.length + 1) =
      b.reverse := by
    have : e.reverse.length + 1 = (e.reverse ++ ['.']).length := by
      simp
    rw [this]
    exact List.drop_left (e.reverse ++ ['.']) b.reverse
  have hbrev : b.reverse.reverse = b := List.reverse_reverse b
  simp only [stemChars, hrev, hpost]
  rw [if_neg hlen, if_neg hne]
  simp only [List.length_reverse] at hdrop ⊢
  rw [show e.length + 1 = e.reverse.length + 1 by simp] at *
  rw [hdrop, hbrev, if_neg hb]

/-- Claim C8: the `/convert` attachment filename is the uploaded
filename's base name with its (last) extension replaced by `.mp3`, and
is `output.mp3` when no filename accompanied the upload (absent or
empty, both falsy in Python). -/
theorem convert_attachment_filename :
    audio_filename none = "output.mp3".toList ∧
    audio_filename (some []) = "output.mp3".toList ∧
    (∀ b e : List Char, b ≠ [] → e ≠ [] → '/' ∉ b → '/' ∉ e → '.' ∉ e →
      audio_filename (some (b ++ '.' :: e)) = b ++ ".mp3".toList) := by
  refine ⟨rfl, rfl, ?_⟩
  intro b e hb he hsb hse hd
  have hne : b ++ '.' :: e ≠ [] := by
    intro hh
    exact hb (List.append_eq_nil.mp hh).1
  have hslash : '/' ∉ b ++ '.' :: e := by
    intro hh
    rcases List.mem_append.mp hh with h | h
    · exact hsb h
    · rcases List.mem_cons.mp h with h | h
      · exact absurd h (by decide)
      · exact hse h
  have hdot : b ++ '.' :: e ≠ ['.'] := by
    intro hh
    have hlen := congrArg List.length hh
    have hbpos : 0 < b.length := List.length_pos.mpr hb
    simp only [List.length_append, List.length_cons, List.length_nil] at hlen
    omega
  have hnonempty : (b ++ '.' :: e).isEmpty = false := by
    cases hcs : b ++ '.' :: e with
    | nil => exact absurd hcs hne
    | cons a as => rfl
  simp only [audio_filename, hnonempty, Bool.false_eq_true, if_false, pathStem,
    pathName_no_slash _ hslash hne hdot, stemChars_append b e hb he hd]

/-- Witness for `convert_attachment_filename`: uploading `video.mp4`
yields the attachment name `video.mp3`. -/
theorem convert_attachment_filename_witness :
    audio_filename (some ("video".toList ++ '.' :: "mp4".toList)) =
      "video".toList ++ ".mp3".toList :=
  convert_attachment_filename.2.2 "video".toList "mp4".toList (by decide) (by decide)
    (by decide) (by decide) (by decide)

/-- Witness for `scratch_path_uniqueness_amended`: two distinct
equal-length `tempfile` tokens give distinct source paths even with
different upload extensions. -/
theorem scratch_path_uniqueness_amended_witness :
    srcScratchPath "aaaa1111".toList ".mp4".toList ≠
      srcScratchPath "bbbb2222".toList ".avi".toList :=
  scratch_path_uniqueness_amended.1 "aaaa1111".toList "bbbb2222".toList
    ".mp4".toList ".avi".toList (by decide) (by decide)
